import Mathlib

/-!
Verification of the shell-fs command interpreter (src/main.go).

The Go source is embedded shallowly: strings are `List Char` (Go iterates
runes), pure functions become Lean functions, and the effectful layers
(job table, process launching) become explicit state passing.  Standard
library calls (`os.ExpandEnv`, `exec.LookPath`, file opening) are passed
in as function parameters or modelled by their documented behaviour,
noted at each definition.
-/

/-- Character constant for the double quote, written numerically. -/
def dquote : Char := Char.ofNat 34

/-- Character constant for the single quote, written numerically. -/
def squote : Char := Char.ofNat 39

/-- Character constant for `rune(0)`, the initial `quoteChar` in main.go. -/
def nul : Char := Char.ofNat 0

/-- Whitespace test used by Go's `strings.TrimSpace` / `strings.Fields`
(`unicode.IsSpace`), restricted to the ASCII and Latin-1 space characters. -/
def isGoSpace (c : Char) : Bool :=
  c == ' ' || c == '\t' || c == '\n' || c == '\x0b' || c == '\x0c' ||
    c == '\r' || c == '\x85' || c == '\xa0'

/-- Model of `strings.TrimSpace`: drop leading and trailing whitespace. -/
def trimSpaceL (l : List Char) : List Char :=
  ((l.dropWhile isGoSpace).reverse.dropWhile isGoSpace).reverse

/-- Accumulator loop for `strings.Fields`: split on whitespace runs,
emitting no empty fields. -/
def fieldsAux : List Char → List Char → List (List Char)
  | [], cur => if cur.isEmpty then [] else [cur]
  | c :: rest, cur =>
    if isGoSpace c then
      if cur.isEmpty then fieldsAux rest [] else cur :: fieldsAux rest []
    else fieldsAux rest (cur ++ [c])

/-- Model of `strings.Fields`, used for alias-value splitting (main.go:170). -/
def fieldsL (s : List Char) : List (List Char) := fieldsAux s []

/-- Model of `strconv.Atoi` as used by handleFg (main.go:592): optional
sign followed by decimal digits; anything else is an error (`none`).
Overflow is not modelled. -/
def goAtoi (s : List Char) : Option Int :=
  match s with
  | [] => none
  | _ =>
    let signSplit : Bool × List Char :=
      match s with
      | '-' :: t => (true, t)
      | '+' :: t => (false, t)
      | t => (false, t)
    let neg := signSplit.1
    let digits := signSplit.2
    if digits.isEmpty then none
    else if digits.all (fun c => c.isDigit) then
      let n : Nat := digits.foldl (fun acc c => acc * 10 + (c.toNat - 48)) 0
      some (if neg then -(n : Int) else (n : Int))
    else none

/-- Model of `strings.TrimPrefix(s, "%")` as used by handleFg (main.go:592). -/
def stripPercent (s : List Char) : List Char :=
  match s with
  | '%' :: t => t
  | t => t

/-- Scanning loop of splitByPipes (main.go:128-156).  State: remaining
input, `inQuote`, `quoteChar`, the `current` builder, and the emitted
commands.  A quote character toggles/keeps quote state exactly as the Go
`if/else if` chain does and is always written to `current`; an unquoted
pipe flushes `TrimSpace(current)` unconditionally; every other rune is
appended to `current`. -/
def splitByPipesAux : List Char → Bool → Char → List Char → List (List Char) → List (List Char)
  | [], _, _, cur, cmds => if cur.isEmpty then cmds else cmds ++ [trimSpaceL cur]
  | r :: rest, inQuote, qc, cur, cmds =>
    if r = dquote ∨ r = squote then
      if inQuote ∧ r = qc then splitByPipesAux rest false qc (cur ++ [r]) cmds
      else if ¬ inQuote then splitByPipesAux rest true r (cur ++ [r]) cmds
      else splitByPipesAux rest inQuote qc (cur ++ [r]) cmds
    else if r = '|' ∧ ¬ inQuote then
      splitByPipesAux rest inQuote qc [] (cmds ++ [trimSpaceL cur])
    else splitByPipesAux rest inQuote qc (cur ++ [r]) cmds

/-- Model of splitByPipes (main.go:128-156). -/
def splitByPipes (input : List Char) : List (List Char) :=
  splitByPipesAux input false nul [] []

/-- Result record of parseCommand (main.go:213-291): argument vector,
input/output redirection targets and the append flag. -/
structure ParsedCommand where
  args : List (List Char)
  inputFile : List Char
  outputFile : List Char
  appendMode : Bool
  deriving Repr, DecidableEq

/-- Scanning loop of parseCommand (main.go:223-284).  `expand` stands for
`os.ExpandEnv`, applied exactly where the Go code applies it: to every
completed argument token, and never to redirection file names.  The two
redirection cases consume the following space run and non-space run just
as the Go index loops do; a `>` immediately followed by `>` sets the
append flag (it is never reset). -/
def parseCommandAux (expand : List Char → List Char) :
    List Char → Bool → Char → List Char → List (List Char) →
      List Char → List Char → Bool → ParsedCommand
  | [], _, _, cur, args, inF, outF, app =>
    ⟨if cur.isEmpty then args else args ++ [expand cur], inF, outF, app⟩
  | r :: rest, inQuote, qc, cur, args, inF, outF, app =>
    if r = dquote ∨ r = squote then
      if inQuote then
        if r = qc then parseCommandAux expand rest false nul cur args inF outF app
        else parseCommandAux expand rest true qc (cur ++ [r]) args inF outF app
      else parseCommandAux expand rest true r cur args inF outF app
    else if r = '<' ∧ ¬ inQuote then
      let args2 := if cur.isEmpty then args else args ++ [expand cur]
      let rest1 := rest.dropWhile (fun c => c == ' ')
      let fname := rest1.takeWhile (fun c => !(c == ' '))
      let rest2 := rest1.dropWhile (fun c => !(c == ' '))
      parseCommandAux expand rest2 inQuote qc [] args2 fname outF app
    else if r = '>' ∧ ¬ inQuote then
      let args2 := if cur.isEmpty then args else args ++ [expand cur]
      let hasSecond := rest.head? == some '>'
      let app2 := if hasSecond then true else app
      let restA := if hasSecond then rest.tail else rest
      let rest1 := restA.dropWhile (fun c => c == ' ')
      let fname := rest1.takeWhile (fun c => !(c == ' '))
      let rest2 := rest1.dropWhile (fun c => !(c == ' '))
      parseCommandAux expand rest2 inQuote qc [] args2 inF fname app2
    else if r = ' ' ∧ ¬ inQuote then
      let args2 := if cur.isEmpty then args else args ++ [expand cur]
      parseCommandAux expand rest inQuote qc [] args2 inF outF app
    else parseCommandAux expand rest inQuote qc (cur ++ [r]) args inF outF app
termination_by l _ _ _ _ _ _ _ => l.length
decreasing_by
  all_goals simp_wf
  all_goals
    first
      | exact Nat.lt_succ_self _
      | (refine Nat.lt_succ_of_le
            (le_trans
              (le_trans (List.dropWhile_sublist _).length_le
                (List.dropWhile_sublist _).length_le) ?_)
         first
           | exact le_rfl
           | (split
              · exact (List.tail_sublist _).length_le
              · exact le_rfl))

/-- Model of parseCommand (main.go:213-291).  The Go function's `error`
result is represented by the `Except` layer; the Go code has no failing
path (it always returns `nil`), which is mirrored by the single
`Except.ok` at the return. -/
def parseCommand (expand : List Char → List Char) (cmdStr : List Char) :
    Except (List Char) ParsedCommand :=
  Except.ok (parseCommandAux expand cmdStr false nul [] [] [] [] false)

/-- Alias expansion step of execSingleCommand (main.go:168-172): when the
first argument is a key of the alias table, it alone is replaced by the
whitespace-split alias value; every later argument is kept unchanged, and
the result is not expanded again. -/
def expandAlias (aliases : List (List Char × List Char)) (args : List (List Char)) :
    List (List Char) :=
  match args with
  | [] => []
  | a0 :: rest =>
    match List.lookup a0 aliases with
    | some v => fieldsL v ++ rest
    | none => a0 :: rest

/-- Default alias table seeded by loadAliases (main.go:686-692). -/
def defaultAliases : List (List Char × List Char) :=
  [("ll".toList, "ls -la".toList), ("la".toList, "ls -a".toList),
   ("..".toList, "cd ..".toList), ("...".toList, "cd ../..".toList)]

/-- Job record (main.go:19-24).  The `Stopped` field starts false (the Go
struct literal omits it) and no code path sets it. -/
structure Job where
  id : Int
  pid : Int
  command : List Char
  stopped : Bool
  deriving Repr, DecidableEq

/-- Interpreter-wide job bookkeeping (main.go:26-29): the job table
(a Go map, modelled as a duplicate-free association list) and `jobCounter`,
initially 1. -/
structure ShellState where
  jobs : List (Int × Job)
  jobCounter : Int
  deriving Repr, DecidableEq

/-- Errors produced by handleFg (main.go:582-618), one constructor per
`errors.New` / `fmt.Errorf` site. -/
inductive FgErr where
  | noJobs
  | invalidJobId (arg : List Char)
  | jobNotFound (id : Int)
  deriving Repr, DecidableEq

/-- Maximum-key selection of handleFg's no-argument branch
(main.go:598-605): start from 0 and keep any larger key. -/
def maxKey (jobs : List (Int × Job)) : Int :=
  jobs.foldl (fun m p => if p.1 > m then p.1 else m) 0

/-- Job-id selection of handleFg (main.go:590-606): with a second argument,
parse it after trimming a `%`; otherwise take the maximal key. -/
def fgSelectId (args : List (List Char)) (st : ShellState) : Except FgErr Int :=
  match args with
  | _ :: a1 :: _ =>
    match goAtoi (stripPercent a1) with
    | none => Except.error (FgErr.invalidJobId a1)
    | some id => Except.ok id
  | _ => Except.ok (maxKey st.jobs)

/-- Model of handleFg (main.go:582-618): empty table fails, unknown id
fails, otherwise the entry is printed (its command text is the returned
string) and removed from the table.  The job counter is untouched. -/
def handleFg (args : List (List Char)) (st : ShellState) :
    Except FgErr (ShellState × List Char) :=
  if st.jobs.isEmpty then Except.error FgErr.noJobs
  else
    match fgSelectId args st with
    | Except.error e => Except.error e
    | Except.ok jobID =>
      match List.lookup jobID st.jobs with
      | none => Except.error (FgErr.jobNotFound jobID)
      | some job =>
        Except.ok
          ({ jobs := st.jobs.filter (fun p => !(p.1 == jobID)),
             jobCounter := st.jobCounter }, job.command)

/-- State transition seen by the main loop for an `fg` line: a Go error
return leaves the global job table exactly as it was (main.go:57-59). -/
def fgApply (args : List (List Char)) (st : ShellState) : ShellState :=
  match handleFg args st with
  | Except.ok (st2, _) => st2
  | Except.error _ => st

/-- Status text printed by handleJobs for one entry (main.go:571-576). -/
def jobStatus (j : Job) : List Char :=
  if j.stopped then "Stopped".toList else "Running".toList

/-- Operations that touch the job table during one interpreter lifetime:
background registration (main.go:368-378 and 442-451), `fg`
(main.go:582-618), the read-only `jobs` listing (main.go:567-580), and the
SIGTSTP notification, which only prints an advisory line (main.go:75-77). -/
inductive ShOp where
  | register (pid : Int) (command : List Char)
  | fg (args : List (List Char))
  | listJobs
  | notifyStop
  deriving Repr, DecidableEq

/-- Effect of one operation on the job state, returning the job ids
announced by `[%d] %d` prints.  Registration stores a Job keyed by the
current counter (Stopped omitted in the Go literal, hence false) and then
increments the counter; nothing else changes the counter. -/
def applyOp (st : ShellState) (op : ShOp) : ShellState × List Int :=
  match op with
  | ShOp.register pid command =>
    let job : Job := { id := st.jobCounter, pid := pid, command := command, stopped := false }
    ({ jobs := (st.jobCounter, job) :: st.jobs.filter (fun p => !(p.1 == st.jobCounter)),
       jobCounter := st.jobCounter + 1 }, [st.jobCounter])
  | ShOp.fg args => (fgApply args st, [])
  | ShOp.listJobs => (st, [])
  | ShOp.notifyStop => (st, [])

/-- Run a sequence of job-table operations, collecting assigned job ids. -/
def runOps (st : ShellState) : List ShOp → ShellState × List Int
  | [] => (st, [])
  | op :: rest =>
    let stepRes := applyOp st op
    let restRes := runOps stepRes.1 rest
    (restRes.1, stepRes.2 ++ restRes.2)

/-- Initial interpreter state (main.go:26-29). -/
def initState : ShellState := { jobs := [], jobCounter := 1 }

/-- Number of background registrations in an operation sequence. -/
def countRegisters (ops : List ShOp) : Nat :=
  ops.countP (fun op => match op with | ShOp.register _ _ => true | _ => false)

/-- The consecutive run of `k` integers starting at `c`: the job ids a
counter starting at `c` hands out over `k` registrations. -/
def idsFrom (c : Int) (k : Nat) : List Int :=
  (List.range k).map (fun i : Nat => c + (i : Int))

/-- Errors of execExternal (main.go:398-458), one constructor per return
site kind: unresolvable executable versus a file that cannot be opened. -/
inductive ExecErr where
  | commandNotFound (name : List Char)
  | ioError (file : List Char)
  deriving Repr, DecidableEq

/-- Observable outcome of one execExternal call: the returned error
(`none` mirrors Go's nil), how many processes were started, and the
permission bits passed when the output target was opened. -/
structure ExecOutcome where
  result : Option ExecErr
  spawned : Nat
  outputMode : Option Nat
  deriving Repr, DecidableEq

/-- Permission bits passed to the OS when an output redirection target is
opened (main.go:421-424, identically main.go:326-330): append mode calls
`os.OpenFile(..., 0644)`, truncate mode calls `os.Create`, whose
documented mode argument is 0666. -/
def outputOpenPerm (appendMode : Bool) : Nat :=
  if appendMode then 0o644 else 0o666

/-- Test of the world-writable permission bit (octal 0o002). -/
def worldWritable (mode : Nat) : Bool := (mode / 2) % 2 == 1

/-- Model of execExternal (main.go:398-458).  `lookPath` stands for
`exec.LookPath`; `canOpenRead`/`canOpenWrite` say whether opening the
named file for reading/writing succeeds.  The steps follow the Go order:
resolve argv[0] (else `command not found`), open the input redirection
(else return that I/O error before any start), open the output
redirection with `outputOpenPerm`, then start the process. -/
def execExternalRun (lookPath : List Char → Option (List Char))
    (canOpenRead : List Char → Bool) (canOpenWrite : List Char → Bool)
    (args : List (List Char)) (inputFile outputFile : List Char)
    (appendMode : Bool) (_background : Bool) : ExecOutcome :=
  match lookPath (args.headD []) with
  | none => { result := some (ExecErr.commandNotFound (args.headD [])), spawned := 0,
              outputMode := none }
  | some _ =>
    if !inputFile.isEmpty && !canOpenRead inputFile then
      { result := some (ExecErr.ioError inputFile), spawned := 0, outputMode := none }
    else if !outputFile.isEmpty then
      if canOpenWrite outputFile then
        { result := none, spawned := 1, outputMode := some (outputOpenPerm appendMode) }
      else
        { result := some (ExecErr.ioError outputFile), spawned := 0,
          outputMode := some (outputOpenPerm appendMode) }
    else { result := none, spawned := 1, outputMode := none }

/-- Foreground wait loop of execPipeline (main.go:388-396).  The input
list holds each stage's `cmd.Wait()` outcome in stage order (`none` for
success).  The Go loop returns the first non-nil error immediately, so
the result pairs the returned error with the number of stages actually
waited on. -/
def waitPipeline : List (Option (List Char)) → Option (List Char) × Nat
  | [] => (none, 0)
  | w :: rest =>
    match w with
    | some e => (some e, 1)
    | none =>
      let tailRes := waitPipeline rest
      (tailRes.1, tailRes.2 + 1)

/-- Front of execInput (main.go:104-116): trim the line, drop empty and
`#`-comment lines, and detect a background launch by the purely textual
test `strings.HasSuffix(input, "&")`; when it fires, exactly that one
trailing `&` is removed and the remainder is trimmed again. -/
def parseInputLine (input : List Char) : Option (Bool × List Char) :=
  if (trimSpaceL input).isEmpty then none
  else if (trimSpaceL input).headD nul = '#' then none
  else if (trimSpaceL input).getLast? = some '&' then
    some (true, trimSpaceL (trimSpaceL input).dropLast)
  else some (false, trimSpaceL input)

example : fieldsL "ls -la".toList = ["ls".toList, "-la".toList] := by decide

example :
    splitByPipes "a | b".toList = [['a'], ['b']] := by decide

example :
    parseCommand (fun s => s) "cat < in.txt".toList
      = Except.ok ⟨["cat".toList], "in.txt".toList, [], false⟩ := by
  simp +decide [parseCommand, parseCommandAux.eq_def]

example :
    parseCommand (fun s => s) "echo hi >> o".toList
      = Except.ok ⟨["echo".toList, "hi".toList], [], ['o'], true⟩ := by
  simp +decide [parseCommand, parseCommandAux.eq_def]

example : parseInputLine "  sleep 5 &  ".toList = some (true, "sleep 5".toList) := by decide

example : parseInputLine "# note".toList = none := by decide

example :
    runOps initState [ShOp.register 7 [], ShOp.fg ["fg".toList], ShOp.register 8 []]
      = ({ jobs := [(2, { id := 2, pid := 8, command := [], stopped := false })],
           jobCounter := 3 }, [1, 2]) := by decide

example : goAtoi "-42".toList = some (-42) := by decide

example : goAtoi "4x".toList = none := by decide

example :
    handleFg ["fg".toList, ['%', '1']]
        { jobs := [(1, { id := 1, pid := 7, command := "x".toList, stopped := false })],
          jobCounter := 2 }
      = Except.ok ({ jobs := [], jobCounter := 2 }, "x".toList) := rfl

theorem handleFg_ok_state {args : List (List Char)} {st st2 : ShellState} {out : List Char}
    (h : handleFg args st = Except.ok (st2, out)) :
    st2.jobCounter = st.jobCounter ∧ ∀ p, p ∈ st2.jobs → p ∈ st.jobs := by
  unfold handleFg at h
  split at h
  · cases h
  · split at h
    · cases h
    · split at h
      · cases h
      · simp only [Except.ok.injEq, Prod.mk.injEq] at h
        obtain ⟨h2, _⟩ := h
        subst h2
        exact ⟨rfl, fun p hp => List.mem_of_mem_filter hp⟩

theorem fgApply_jobCounter (args : List (List Char)) (st : ShellState) :
    (fgApply args st).jobCounter = st.jobCounter := by
  cases hfg : handleFg args st with
  | error e => simp [fgApply, hfg]
  | ok pr =>
    obtain ⟨st2, out⟩ := pr
    simp only [fgApply, hfg]
    exact (handleFg_ok_state hfg).1

theorem fgApply_mem {args : List (List Char)} {st : ShellState} {p : Int × Job}
    (hp : p ∈ (fgApply args st).jobs) : p ∈ st.jobs := by
  cases hfg : handleFg args st with
  | error e => simpa [fgApply, hfg] using hp
  | ok pr =>
    obtain ⟨st2, out⟩ := pr
    rw [fgApply, hfg] at hp
    exact (handleFg_ok_state hfg).2 p hp

theorem idsFrom_succ (c : Int) (k : Nat) : idsFrom c (k + 1) = c :: idsFrom (c + 1) k := by
  simp only [idsFrom, List.range_succ_eq_map, List.map_cons, List.map_map,
    Nat.cast_zero, add_zero]
  congr 1
  apply List.map_congr_left
  intro i _
  simp only [Function.comp_apply]
  push_cast
  ring

theorem countRegisters_cons_register (pid : Int) (command : List Char) (rest : List ShOp) :
    countRegisters (ShOp.register pid command :: rest) = countRegisters rest + 1 := by
  simp [countRegisters, List.countP_cons]

theorem countRegisters_cons_other (op : ShOp) (rest : List ShOp)
    (h : ∀ pid command, op ≠ ShOp.register pid command) :
    countRegisters (op :: rest) = countRegisters rest := by
  cases op with
  | register pid command => exact absurd rfl (h pid command)
  | fg args => simp [countRegisters, List.countP_cons]
  | listJobs => simp [countRegisters, List.countP_cons]
  | notifyStop => simp [countRegisters, List.countP_cons]

theorem runOps_assigned (ops : List ShOp) : ∀ st : ShellState,
    (runOps st ops).2 = idsFrom st.jobCounter (countRegisters ops)
      ∧ (runOps st ops).1.jobCounter = st.jobCounter + (countRegisters ops : Int) := by
  induction ops with
  | nil => intro st; simp [runOps, countRegisters, idsFrom]
  | cons op rest ih =>
    intro st
    cases op with
    | register pid command =>
      simp only [runOps, applyOp]
      rw [countRegisters_cons_register, idsFrom_succ]
      constructor
      · rw [(ih _).1]
        rfl
      · rw [(ih _).2]
        push_cast
        ring
    | fg args =>
      simp only [runOps, applyOp]
      rw [countRegisters_cons_other _ _ (by intro pid command h; cases h)]
      refine ⟨?_, ?_⟩
      · rw [(ih _).1, fgApply_jobCounter]
        simp
      · rw [(ih _).2, fgApply_jobCounter]
    | listJobs =>
      simp only [runOps, applyOp]
      rw [countRegisters_cons_other _ _ (by intro pid command h; cases h)]
      exact ⟨by rw [(ih _).1]; simp, (ih _).2⟩
    | notifyStop =>
      simp only [runOps, applyOp]
      rw [countRegisters_cons_other _ _ (by intro pid command h; cases h)]
      exact ⟨by rw [(ih _).1]; simp, (ih _).2⟩

theorem parseCommandAux_flush (expand : List Char → List Char) (inQuote : Bool) (qc a : Char)
    (cs : List Char) (args : List (List Char)) (inF outF : List Char) (app : Bool) :
    parseCommandAux expand [] inQuote qc (a :: cs) args inF outF app
      = ⟨args ++ [expand (a :: cs)], inF, outF, app⟩ := by
  rw [parseCommandAux.eq_def]
  rfl

theorem parseCommandAux_closeQuote (expand : List Char → List Char) (rest cur : List Char)
    (args : List (List Char)) (inF outF : List Char) (app : Bool) :
    parseCommandAux expand (dquote :: rest) true dquote cur args inF outF app
      = parseCommandAux expand rest false nul cur args inF outF app := by
  rw [parseCommandAux.eq_def]
  simp

theorem parseCommandAux_openDquote (expand : List Char → List Char) (rest : List Char)
    (qc : Char) (cur : List Char) (args : List (List Char)) (inF outF : List Char) (app : Bool) :
    parseCommandAux expand (dquote :: rest) false qc cur args inF outF app
      = parseCommandAux expand rest true dquote cur args inF outF app := by
  rw [parseCommandAux.eq_def]
  simp

theorem parseCommandAux_plainStep (expand : List Char → List Char) (r : Char)
    (h1 : ¬ r = dquote) (h2 : ¬ r = squote) (h3 : ¬ r = '<') (h4 : ¬ r = '>')
    (h5 : ¬ r = ' ') (rest : List Char) (qc : Char) (cur : List Char)
    (args : List (List Char)) (inF outF : List Char) (app : Bool) :
    parseCommandAux expand (r :: rest) false qc cur args inF outF app
      = parseCommandAux expand rest false qc (cur ++ [r]) args inF outF app := by
  rw [parseCommandAux.eq_def]
  simp [h1, h2, h3, h4, h5]

theorem parseCommandAux_spaceStep (expand : List Char → List Char) (rest : List Char)
    (qc : Char) (cur : List Char) (args : List (List Char)) (inF outF : List Char)
    (app : Bool) :
    parseCommandAux expand (' ' :: rest) false qc cur args inF outF app
      = parseCommandAux expand rest false qc []
          (if cur.isEmpty then args else args ++ [expand cur]) inF outF app := by
  rw [parseCommandAux.eq_def]
  simp +decide

theorem parseCommandAux_echoLead (expand : List Char → List Char) (t : List Char) :
    parseCommandAux expand ("echo ".toList ++ dquote :: t) false nul [] [] [] [] false
      = parseCommandAux expand t true dquote [] [expand "echo".toList] [] [] false := by
  show parseCommandAux expand ('e' :: 'c' :: 'h' :: 'o' :: ' ' :: dquote :: t)
      false nul [] [] [] [] false = _
  rw [parseCommandAux_plainStep expand 'e' (by decide) (by decide) (by decide) (by decide)
    (by decide)]
  rw [parseCommandAux_plainStep expand 'c' (by decide) (by decide) (by decide) (by decide)
    (by decide)]
  rw [parseCommandAux_plainStep expand 'h' (by decide) (by decide) (by decide) (by decide)
    (by decide)]
  rw [parseCommandAux_plainStep expand 'o' (by decide) (by decide) (by decide) (by decide)
    (by decide)]
  rw [parseCommandAux_spaceStep]
  rw [parseCommandAux_openDquote]
  rfl

theorem parseCommandAux_quoteScan (expand : List Char → List Char) (x : List Char)
    (h : dquote ∉ x) : ∀ cur : List Char, ∀ rest : List Char, ∀ args : List (List Char),
    ∀ inF outF : List Char, ∀ app : Bool,
    parseCommandAux expand (x ++ rest) true dquote cur args inF outF app
      = parseCommandAux expand rest true dquote (cur ++ x) args inF outF app := by
  induction x with
  | nil => intro cur rest args inF outF app; simp
  | cons c x2 ih =>
    intro cur rest args inF outF app
    have hcd : ¬ c = dquote := fun hc => h (hc ▸ List.mem_cons_self c x2)
    have hx2 : dquote ∉ x2 := fun hm => h (List.mem_cons_of_mem c hm)
    have step :
        parseCommandAux expand (c :: (x2 ++ rest)) true dquote cur args inF outF app
          = parseCommandAux expand (x2 ++ rest) true dquote (cur ++ [c]) args inF outF app := by
      rw [parseCommandAux.eq_def]
      by_cases hsq : c = squote
      · subst hsq
        simp +decide
      · have hq : ¬ (c = dquote ∨ c = squote) := by simp [hcd, hsq]
        simp [hq]
    rw [List.cons_append, step, ih hx2 (cur ++ [c]) rest args inF outF app]
    simp

theorem splitByPipesAux_close (rest cur : List Char) (cmds : List (List Char)) :
    splitByPipesAux (dquote :: rest) true dquote cur cmds
      = splitByPipesAux rest false dquote (cur ++ [dquote]) cmds := by
  simp +decide [splitByPipesAux]

theorem splitByPipesAux_flushEnd (a : Char) (cs : List Char) (inQuote : Bool) (qc : Char)
    (cmds : List (List Char)) :
    splitByPipesAux [] inQuote qc (a :: cs) cmds = cmds ++ [trimSpaceL (a :: cs)] := by
  simp [splitByPipesAux]

theorem splitByPipesAux_quoteScan (x : List Char) (h : dquote ∉ x) :
    ∀ cur rest : List Char, ∀ cmds : List (List Char),
    splitByPipesAux (x ++ rest) true dquote cur cmds
      = splitByPipesAux rest true dquote (cur ++ x) cmds := by
  induction x with
  | nil => intro cur rest cmds; simp
  | cons c x2 ih =>
    intro cur rest cmds
    have hcd : ¬ c = dquote := fun hc => h (hc ▸ List.mem_cons_self c x2)
    have hx2 : dquote ∉ x2 := fun hm => h (List.mem_cons_of_mem c hm)
    have step :
        splitByPipesAux (c :: (x2 ++ rest)) true dquote cur cmds
          = splitByPipesAux (x2 ++ rest) true dquote (cur ++ [c]) cmds := by
      by_cases hsq : c = squote
      · subst hsq
        simp +decide [splitByPipesAux]
      · have hq : ¬ (c = dquote ∨ c = squote) := by simp [hcd, hsq]
        simp [splitByPipesAux, hq]
    rw [List.cons_append, step, ih hx2 (cur ++ [c]) rest cmds]
    simp

theorem trimSpaceL_sandwich (a : Char) (l : List Char) (c : Char)
    (ha : isGoSpace a = false) (hc : isGoSpace c = false) :
    trimSpaceL (a :: (l ++ [c])) = a :: (l ++ [c]) := by
  unfold trimSpaceL
  rw [List.dropWhile_cons]
  simp only [ha, Bool.false_eq_true, if_false]
  rw [show (a :: (l ++ [c])).reverse = c :: (l.reverse ++ [a]) by simp]
  rw [List.dropWhile_cons]
  simp only [hc, Bool.false_eq_true, if_false]
  simp

theorem runOps_not_stopped (ops : List ShOp) : ∀ st : ShellState,
    (∀ p ∈ st.jobs, p.2.stopped = false) →
      ∀ p ∈ (runOps st ops).1.jobs, p.2.stopped = false := by
  induction ops with
  | nil => intro st hst; simpa [runOps] using hst
  | cons op rest ih =>
    intro st hst
    cases op with
    | register pid command =>
      refine ih _ ?_
      intro p hp
      simp only [applyOp, List.mem_cons] at hp
      rcases hp with hp | hp
      · rw [hp]
      · exact hst p (List.mem_of_mem_filter hp)
    | fg args =>
      refine ih _ ?_
      intro p hp
      exact hst p (fgApply_mem hp)
    | listJobs => exact ih _ hst
    | notifyStop => exact ih _ hst

theorem splitByPipes_echoLead (t : List Char) :
    splitByPipesAux ("echo ".toList ++ dquote :: t) false nul [] []
      = splitByPipesAux t true dquote ("echo ".toList ++ [dquote]) [] := by
  rfl

/-- Claim C1 (counterexample): the claim says the foreground path of execPipeline
waits on every stage even after an early failure.  With two stages whose
first `Wait` fails, the loop at main.go:389-393 returns at the first error
and waits on only 1 of the 2 stages. -/
theorem c1_counterexample :
    (waitPipeline [some "exit status 1".toList, none]).2
      ≠ [some "exit status 1".toList, none].length := by decide

/-- Claim C1 (amended): the foreground wait loop of execPipeline visits stages in
order and returns the first failure outcome, but it returns immediately at
that first failure: the number of stages waited on is the position of the
first failing stage plus one (all stages only when none fails), so stages
after a failure are left unreaped. -/
theorem c1_foreground_wait_first_error : ∀ rs : List (Option (List Char)),
    (waitPipeline rs).1 = rs.findSome? (fun w => w)
      ∧ (waitPipeline rs).2
          = min ((rs.takeWhile (fun w => w.isNone)).length + 1) rs.length := by
  intro rs
  induction rs with
  | nil => simp [waitPipeline]
  | cons w rest ih =>
    cases w with
    | some e =>
      simp [waitPipeline, List.findSome?_cons, List.takeWhile_cons]
    | none =>
      simp only [waitPipeline, List.findSome?_cons, List.takeWhile_cons, Option.isNone_none,
        if_true, List.length_cons]
      refine ⟨ih.1, ?_⟩
      simp only [ih.2]
      omega

/-- Claim C2: an input line whose only quoted region is balanced keeps pipe,
redirection and space characters inside the quotes as literal token
content: for every non-empty quote body `x` free of double quotes,
`echo "x"` splits into exactly one pipeline stage (the whole line), and
parsing that stage yields the two tokens `echo` and `x` with no
redirections, for any environment expansion. -/
theorem c2_quoted_pipe_single_stage (expand : List Char → List Char) (x : List Char)
    (hne : x ≠ []) (hq : dquote ∉ x) :
    splitByPipes ("echo ".toList ++ dquote :: (x ++ [dquote]))
        = ["echo ".toList ++ dquote :: (x ++ [dquote])]
      ∧ parseCommand expand ("echo ".toList ++ dquote :: (x ++ [dquote]))
        = Except.ok ⟨[expand "echo".toList, expand x], [], [], false⟩ := by
  obtain ⟨a, cs, rfl⟩ := List.exists_cons_of_ne_nil hne
  constructor
  · unfold splitByPipes
    rw [splitByPipes_echoLead]
    rw [splitByPipesAux_quoteScan (a :: cs) hq]
    rw [splitByPipesAux_close]
    have hshape : (("echo ".toList ++ [dquote]) ++ (a :: cs)) ++ [dquote]
        = 'e' :: (("cho ".toList ++ dquote :: a :: cs) ++ [dquote]) := by simp
    rw [hshape, splitByPipesAux_flushEnd]
    rw [trimSpaceL_sandwich 'e' _ dquote (by decide) (by decide)]
    rfl
  · unfold parseCommand
    rw [parseCommandAux_echoLead]
    rw [parseCommandAux_quoteScan expand (a :: cs) hq]
    rw [parseCommandAux_closeQuote]
    simp only [List.nil_append]
    rw [parseCommandAux_flush]
    rfl

/-- Claim C2 (witness): the concrete instance `echo "a|b"` from the claim. -/
theorem c2_witness :
    splitByPipes ("echo ".toList ++ dquote :: ("a|b".toList ++ [dquote]))
        = ["echo ".toList ++ dquote :: ("a|b".toList ++ [dquote])]
      ∧ parseCommand (fun s => s) ("echo ".toList ++ dquote :: ("a|b".toList ++ [dquote]))
        = Except.ok ⟨["echo".toList, "a|b".toList], [], [], false⟩ :=
  c2_quoted_pipe_single_stage (fun s => s) "a|b".toList (by decide) (by decide)

/-- Claim C5: parseCommand never raises an error, on any input; in particular,
for an unterminated double quote (`echo "x` with no closing quote) the
scan ends with the quote still open and the buffered content `x` is
flushed as the stage's final token. -/
theorem c5_unterminated_quote_tolerated :
    (∀ (expand : List Char → List Char) (s : List Char),
        ∃ pc, parseCommand expand s = Except.ok pc)
      ∧ (∀ (expand : List Char → List Char) (x : List Char), x ≠ [] → dquote ∉ x →
          parseCommand expand ("echo ".toList ++ dquote :: x)
            = Except.ok ⟨[expand "echo".toList, expand x], [], [], false⟩) := by
  constructor
  · intro expand s
    exact ⟨_, rfl⟩
  · intro expand x hne hq
    obtain ⟨a, cs, rfl⟩ := List.exists_cons_of_ne_nil hne
    unfold parseCommand
    rw [parseCommandAux_echoLead]
    have q2 := parseCommandAux_quoteScan expand (a :: cs) hq [] [] [expand "echo".toList]
      [] [] false
    simp only [List.append_nil, List.nil_append] at q2
    rw [q2]
    rw [parseCommandAux_flush]
    rfl

/-- Claim C5 (witness): the unterminated input `echo "abc` parses without error
into the tokens `echo` and `abc`. -/
theorem c5_witness :
    (∃ pc, parseCommand (fun s => s) [dquote] = Except.ok pc)
      ∧ parseCommand (fun s => s) ("echo ".toList ++ dquote :: "abc".toList)
        = Except.ok ⟨["echo".toList, "abc".toList], [], [], false⟩ :=
  ⟨c5_unterminated_quote_tolerated.1 (fun s => s) [dquote],
   c5_unterminated_quote_tolerated.2 (fun s => s) "abc".toList (by decide) (by decide)⟩

/-- Claim C3: over any sequence of job-table operations starting from the
initial state, the job ids printed for detached commands are exactly
1, 2, 3, ... in order (`idsFrom 1 k` is that run), and they are pairwise
strictly increasing, so an id is never reused even after `fg` removes its
entry. -/
theorem c3_job_ids_strictly_increasing_from_one :
    ∀ ops : List ShOp,
      (runOps initState ops).2 = idsFrom 1 (countRegisters ops)
        ∧ List.Pairwise (fun a b : Int => a < b) (runOps initState ops).2 := by
  intro ops
  have h := (runOps_assigned ops initState).1
  have hpair : List.Pairwise (fun a b : Int => a < b) (idsFrom 1 (countRegisters ops)) := by
    unfold idsFrom
    refine List.Pairwise.map _ ?_ (List.pairwise_lt_range (countRegisters ops))
    intro a b hab
    have : (a : Int) < (b : Int) := by exact_mod_cast hab
    omega
  exact ⟨h, h ▸ hpair⟩

/-- Claim C4 (counterexample): the claim says both redirection forms create the
target with mode 0644 (never world-writable).  The truncate form `>` calls
`os.Create` (main.go:329, main.go:424), which passes mode 0666 — the
world-writable bit is set in the requested mode. -/
theorem c4_counterexample :
    outputOpenPerm false = 0o666 ∧ worldWritable (outputOpenPerm false) = true := by decide

/-- Claim C4 (amended): the append form `>>` opens the target with mode 0644,
which is not world-writable, but the truncate form `>` uses `os.Create`
and therefore requests mode 0666, which has the world-writable bit set
(subject only to the process umask); execExternalRun records exactly
these modes at the output-open step. -/
theorem c4_output_redirection_modes :
    outputOpenPerm true = 0o644 ∧ worldWritable (outputOpenPerm true) = false
      ∧ outputOpenPerm false = 0o666 ∧ worldWritable (outputOpenPerm false) = true
      ∧ (execExternalRun (fun _ => some "/bin/ls".toList) (fun _ => true) (fun _ => true)
            ["ls".toList] [] "out.txt".toList false false).outputMode
          = some (outputOpenPerm false)
      ∧ (execExternalRun (fun _ => some "/bin/ls".toList) (fun _ => true) (fun _ => true)
            ["ls".toList] [] "out.txt".toList true false).outputMode
          = some (outputOpenPerm true) :=
  ⟨rfl, rfl, rfl, rfl, rfl, rfl⟩

/-- Claim C6: alias expansion in execSingleCommand applies only when the first
token is an alias key: with the default table, `ll` at the head becomes
`ls -la` with all later arguments kept in order; a head that is not a key
leaves the stage unchanged (so non-leading occurrences of alias names are
never rewritten); the replacement itself is not expanded again (alias
`a -> b` with `b -> c` yields `b`); and the full parse of `ll /tmp extra`
expands to argv `[ls, -la, /tmp, extra]`. -/
theorem c6_alias_expansion_leading_token :
    (∀ rest : List (List Char),
        expandAlias defaultAliases ("ll".toList :: rest)
          = "ls".toList :: "-la".toList :: rest)
      ∧ (∀ (a : List Char) (rest : List (List Char)), List.lookup a defaultAliases = none →
          expandAlias defaultAliases (a :: rest) = a :: rest)
      ∧ expandAlias [("a".toList, "b".toList), ("b".toList, "c".toList)] ["a".toList]
          = ["b".toList]
      ∧ (parseCommand (fun s => s) "ll /tmp extra".toList).map
            (fun pc => expandAlias defaultAliases pc.args)
          = Except.ok ["ls".toList, "-la".toList, "/tmp".toList, "extra".toList] := by
  refine ⟨?_, ?_, ?_, ?_⟩
  · intro rest
    rfl
  · intro a rest h
    simp [expandAlias, h]
  · rfl
  · simp +decide [parseCommand, parseCommandAux.eq_def, Except.map, expandAlias,
      defaultAliases, fieldsL, fieldsAux]

/-- Claim C6 (witness): `ll /tmp extra` expands keeping both arguments, while a
non-alias head such as `echo` leaves a later `ll` untouched. -/
theorem c6_witness :
    expandAlias defaultAliases ["ll".toList, "/tmp".toList, "extra".toList]
        = ["ls".toList, "-la".toList, "/tmp".toList, "extra".toList]
      ∧ expandAlias defaultAliases ["echo".toList, "ll".toList]
        = ["echo".toList, "ll".toList] :=
  ⟨c6_alias_expansion_leading_token.1 ["/tmp".toList, "extra".toList],
   c6_alias_expansion_leading_token.2.1 "echo".toList ["ll".toList] (by decide)⟩

/-- Claim C7: when argv[0] resolves on the search path but the input redirection
names a file that cannot be opened, execExternal returns that I/O error
with no process spawned, and the error is never the `command not found`
error. -/
theorem c7_input_redirection_error_before_spawn :
    ∀ (lookPath : List Char → Option (List Char))
      (canOpenRead canOpenWrite : List Char → Bool)
      (args : List (List Char)) (inF outF : List Char) (app bg : Bool) (path : List Char),
      lookPath (args.headD []) = some path → inF ≠ [] → canOpenRead inF = false →
        (execExternalRun lookPath canOpenRead canOpenWrite args inF outF app bg).result
            = some (ExecErr.ioError inF)
          ∧ (execExternalRun lookPath canOpenRead canOpenWrite args inF outF app bg).spawned
              = 0
          ∧ ∀ name : List Char,
              (execExternalRun lookPath canOpenRead canOpenWrite args inF outF app bg).result
                ≠ some (ExecErr.commandNotFound name) := by
  intro lookPath cr cw args inF outF app bg path hlook hne hread
  obtain ⟨a, t, rfl⟩ := List.exists_cons_of_ne_nil hne
  unfold execExternalRun
  rw [hlook]
  simp [hread]

/-- Claim C7 (witness): a resolvable `cat` with a missing input file fails with
the I/O error, spawning nothing. -/
theorem c7_witness :
    (execExternalRun (fun _ => some "/bin/cat".toList) (fun _ => false) (fun _ => true)
          ["cat".toList] "missing.txt".toList [] false false).result
        = some (ExecErr.ioError "missing.txt".toList)
      ∧ (execExternalRun (fun _ => some "/bin/cat".toList) (fun _ => false) (fun _ => true)
          ["cat".toList] "missing.txt".toList [] false false).spawned = 0 := by
  have h := c7_input_redirection_error_before_spawn (fun _ => some "/bin/cat".toList)
    (fun _ => false) (fun _ => true) ["cat".toList] "missing.txt".toList [] false false
    "/bin/cat".toList rfl (by decide) rfl
  exact ⟨h.1, h.2.1⟩

/-- Claim C8: in every state reachable by job-table operations from the initial
state, every job in the table has `stopped = false`, so the `jobs`
listing prints `Running` for every entry; the stop-notification path is
among the modelled operations and never sets Stopped. -/
theorem c8_jobs_always_running :
    ∀ (ops : List ShOp) (p : Int × Job), p ∈ (runOps initState ops).1.jobs →
      p.2.stopped = false ∧ jobStatus p.2 = "Running".toList := by
  intro ops p hp
  have hstop : p.2.stopped = false := by
    refine runOps_not_stopped ops initState ?_ p hp
    intro q hq
    simp [initState] at hq
  exact ⟨hstop, by simp [jobStatus, hstop]⟩

/-- Claim C8 (witness): after registering one background job (and a stop
notification), the job table's single entry lists as Running. -/
theorem c8_witness :
    ((1 : Int), ({ id := 1, pid := 9, command := [], stopped := false } : Job)).2.stopped
        = false
      ∧ jobStatus ((1 : Int), ({ id := 1, pid := 9, command := [], stopped := false } : Job)).2
        = "Running".toList :=
  c8_jobs_always_running [ShOp.register 9 [], ShOp.notifyStop] _ (by decide)

/-- Claim C9: `fg` on an empty job table fails with the no-jobs error, and `fg`
with an id absent from the table fails with the job-not-found error; in
both cases the main loop's state transition leaves the job table exactly
unchanged. -/
theorem c9_fg_invalid_reference :
    (∀ (args : List (List Char)) (st : ShellState), st.jobs = [] →
        handleFg args st = Except.error FgErr.noJobs ∧ fgApply args st = st)
      ∧ (∀ (args : List (List Char)) (st : ShellState) (id : Int), st.jobs ≠ [] →
          fgSelectId args st = Except.ok id → List.lookup id st.jobs = none →
            handleFg args st = Except.error (FgErr.jobNotFound id)
              ∧ fgApply args st = st) := by
  constructor
  · intro args st h
    refine ⟨?_, ?_⟩
    · simp [handleFg, h]
    · simp [fgApply, handleFg, h]
  · intro args st id hne hsel hlook
    have hempty : st.jobs.isEmpty = false := by
      cases hjj : st.jobs with
      | nil => exact absurd hjj hne
      | cons q t => rfl
    have hfg : handleFg args st = Except.error (FgErr.jobNotFound id) := by
      unfold handleFg
      simp [hempty, hsel, hlook]
    exact ⟨hfg, by simp [fgApply, hfg]⟩

/-- Claim C9 (witness): `fg` with an empty table, and `fg %2` when only job 1
exists, both fail as claimed. -/
theorem c9_witness :
    handleFg ["fg".toList] { jobs := [], jobCounter := 1 } = Except.error FgErr.noJobs
      ∧ handleFg ["fg".toList, ['%', '2']]
          { jobs := [(1, { id := 1, pid := 7, command := [], stopped := false })],
            jobCounter := 2 }
        = Except.error (FgErr.jobNotFound 2) :=
  ⟨(c9_fg_invalid_reference.1 ["fg".toList] { jobs := [], jobCounter := 1 } rfl).1,
   (c9_fg_invalid_reference.2 ["fg".toList, ['%', '2']]
      { jobs := [(1, { id := 1, pid := 7, command := [], stopped := false })],
        jobCounter := 2 } 2 (by decide) rfl rfl).1⟩

/-- Claim C10: a non-empty, non-comment line is launched in the background if
and only if the whitespace-trimmed line ends with `&`; when it does,
exactly that one trailing `&` is removed and the remainder re-trimmed,
otherwise the trimmed line is passed on unchanged.  The test is purely
textual (no quote tracking), as the witness with an unterminated quote
shows. -/
theorem c10_background_iff_trailing_amp :
    ∀ input : List Char,
      (trimSpaceL input ≠ [] → ¬ (trimSpaceL input).headD nul = '#' →
        ∃ b r, parseInputLine input = some (b, r))
        ∧ (∀ (b : Bool) (r : List Char), parseInputLine input = some (b, r) →
            (b = true ↔ (trimSpaceL input).getLast? = some '&')
              ∧ (b = true → r = trimSpaceL (trimSpaceL input).dropLast)
              ∧ (b = false → r = trimSpaceL input)) := by
  intro input
  constructor
  · intro h1 h2
    have hempty : ¬ ((trimSpaceL input).isEmpty = true) := by
      cases hjj : trimSpaceL input with
      | nil => exact absurd hjj h1
      | cons q t => simp [hjj]
    unfold parseInputLine
    rw [if_neg hempty, if_neg h2]
    by_cases h3 : (trimSpaceL input).getLast? = some '&'
    · rw [if_pos h3]
      exact ⟨_, _, rfl⟩
    · rw [if_neg h3]
      exact ⟨_, _, rfl⟩
  · intro b r hbr
    unfold parseInputLine at hbr
    split_ifs at hbr with h1 h2 h3
    · obtain ⟨rfl, rfl⟩ := hbr
      exact ⟨iff_of_true rfl h3, fun _ => rfl, fun hf => Bool.noConfusion hf⟩
    · obtain ⟨rfl, rfl⟩ := hbr
      exact ⟨iff_of_false (fun hf => Bool.noConfusion hf) h3,
        fun hf => Bool.noConfusion hf, fun _ => rfl⟩

/-- Claim C10 (witness): `echo "a &` ends (textually) with `&` even though the
`&` is inside an unterminated quoted region, so it still parses as a
background launch; `echo hi` does not. -/
theorem c10_witness :
    (∃ b r, parseInputLine ("echo ".toList ++ dquote :: "a &".toList) = some (b, r))
      ∧ (true = true
          ↔ (trimSpaceL ("echo ".toList ++ dquote :: "a &".toList)).getLast? = some '&') :=
  ⟨(c10_background_iff_trailing_amp ("echo ".toList ++ dquote :: "a &".toList)).1
      (by decide) (by decide),
   ((c10_background_iff_trailing_amp ("echo ".toList ++ dquote :: "a &".toList)).2
      true ("echo ".toList ++ dquote :: ['a']) (by decide)).1⟩
